import Mathlib

/-
Verification of the talking-bird retrieval pipeline.

The Python sources under backend/app/services are shallowly embedded:
text is a list of characters (ASCII inputs; Python's Unicode-aware
character classes coincide with the ASCII definitions below on such
inputs), scores (Python floats) are rationals, and the transcendental
sigmoid used by the reranker maps into the reals.  External services
(embedding model, vector index, BM25 library, cross encoder, completion
client) are parameters of the embedded functions, exactly at the call
seams of the source.
-/

namespace TalkingBird

/-- Python str.isspace for ASCII characters (also the characters matched
by the regex class backslash-s). -/
def pyIsSpace (c : Char) : Bool :=
  c = ' ' || c = '\t' || c = '\n' || c = '\r' || c = '\x0b' || c = '\x0c'

/-- Python str.isupper for a single ASCII character. -/
def pyIsUpper (c : Char) : Bool := 'A' ≤ c && c ≤ 'Z'

/-- Python str.islower for a single ASCII character. -/
def pyIsLower (c : Char) : Bool := 'a' ≤ c && c ≤ 'z'

/-- Python str.isalpha for a single ASCII character. -/
def pyIsAlpha (c : Char) : Bool := pyIsUpper c || pyIsLower c

/-- Python str.isdigit for a single ASCII character. -/
def pyIsDigit (c : Char) : Bool := '0' ≤ c && c ≤ '9'

/-- Python str.lower for a single ASCII character. -/
def pyToLower (c : Char) : Char :=
  if pyIsUpper c then Char.ofNat (c.toNat + 32) else c

/-- Python str.strip: drop leading and trailing whitespace. -/
def pyStrip (cs : List Char) : List Char :=
  ((cs.dropWhile pyIsSpace).reverse.dropWhile pyIsSpace).reverse

/-- Replace every maximal run of whitespace by a single space
(the substitution re.sub of one-or-more whitespace by a space).  The
Boolean flag records whether the previous character was part of a
whitespace run that has already emitted its space. -/
def collapseGo : Bool → List Char → List Char
  | _, [] => []
  | inRun, c :: rest =>
    if pyIsSpace c then
      if inRun then collapseGo true rest
      else ' ' :: collapseGo true rest
    else c :: collapseGo false rest

/-- re.sub of one-or-more whitespace by a single space. -/
def collapseWs (cs : List Char) : List Char := collapseGo false cs

/-- Whitespace normalization performed at the top of
split_into_sentences: re.sub of whitespace runs applied to text.strip(). -/
def normalizeWs (cs : List Char) : List Char := collapseWs (pyStrip cs)

/-- ABBREVIATIONS from document_processor.py: words that must not end a
sentence. -/
def ABBREVIATIONS : List (List Char) :=
  ["mr", "mrs", "ms", "dr", "prof", "sr", "jr", "vs", "etc", "inc", "ltd",
   "corp", "co", "no", "vol", "pg", "pp", "fig", "al", "ed", "rev"].map
    String.toList

/-- Python text[a:b]. -/
def sliceL (t : List Char) (a b : Nat) : List Char := (t.drop a).take (b - a)

/-- The backwards walk computing word_start in is_sentence_boundary:
starting from word_end, step left while the previous character is
alphabetic. -/
def wordStart (t : List Char) : Nat → Nat
  | 0 => 0
  | k + 1 => if pyIsAlpha (t.getD k ' ') then wordStart t k else k + 1

/-- is_sentence_boundary from document_processor.py: decides whether the
position just after sentence-ending punctuation is a real sentence
boundary. -/
def is_sentence_boundary (text : List Char) (pos : Nat) : Bool :=
  if text.length ≤ pos then true
  else
    match text.drop pos with
    | [] => false
    | c0 :: _ =>
      if !pyIsSpace c0 then false
      else
        match (text.drop pos).findIdx? (fun c => !pyIsSpace c) with
        | none => false
        | some idx =>
          let next_char := (text.drop pos).getD idx ' '
          if !(pyIsUpper next_char || pyIsDigit next_char ||
               next_char ∈ ['"', Char.ofNat 39, '(', '[']) then false
          else if pos = 0 then true
          else
            let word_end := pos - 1
            let ws := wordStart text word_end
            let word := (sliceL text ws word_end).map pyToLower
            if word ∈ ABBREVIATIONS then false
            else if word.length = 1 && word.all pyIsAlpha then false
            else true

/-- Count of consecutive whitespace characters at the front. -/
def leadingSpaces : List Char → Nat
  | [] => 0
  | c :: rest => if pyIsSpace c then leadingSpaces rest + 1 else 0

/-- First index k with j ≤ k at which the text has a non-space character
(the while loop advancing current_start past whitespace); returns the
text length when none exists. -/
def skipSpaces (t : List Char) (j : Nat) : Nat := j + leadingSpaces (t.drop j)

/-- The scanning loop of split_into_sentences: walk the text (the first
argument is the not-yet-visited part, the character of index i
onwards), and at every sentence-ending punctuation mark that is a real
boundary emit the stripped slice since current_start.  Returns the
accumulated sentences and the final current_start. -/
def scanGo (t : List Char) :
    List Char → Nat → Nat → List (List Char) → List (List Char) × Nat
  | [], _, curStart, acc => (acc, curStart)
  | c :: rem, i, curStart, acc =>
    if (c = '.' || c = '!' || c = '?') && is_sentence_boundary t (i + 1) then
      let sentence := pyStrip (sliceL t curStart (i + 1))
      let acc' := if sentence = [] then acc else acc ++ [sentence]
      scanGo t rem (i + 1) (skipSpaces t (i + 1)) acc'
    else scanGo t rem (i + 1) curStart acc

/-- The whole scan of split_into_sentences. -/
def scanSentences (t : List Char) : List (List Char) × Nat := scanGo t t 0 0 []

/-- Whether the run held in a pending buffer (stored reversed) contains
a second newline beyond its opening one, and the whitespace following
its last newline: used to resolve one candidate match of the pattern
newline, whitespace run, newline. -/
def splitPending (pend : List Char) : Bool × List Char :=
  match pend.span (fun c => c ≠ '\n') with
  | (pref, _ :: rest) => (rest.any (fun c => c = '\n'), pref)
  | (pref, []) => (false, pref)

/-- One splitting pass of re.split on the pattern newline, whitespace
run, newline.  The segment and the pending whitespace run are stored
reversed; a pending run opens at a newline and is resolved at the next
non-space character or at the end: if it holds a second newline the
match runs from its first to its last newline and the text splits
there, otherwise the run stays inside the segment. -/
def splitParagraphsGo : List Char → List Char → List Char → List (List Char)
  | [], seg, pend =>
    if pend.isEmpty then [seg.reverse]
    else
      match splitPending pend with
      | (true, pref) => [seg.reverse, pref.reverse]
      | (false, _) => [(pend ++ seg).reverse]
  | c :: rem, seg, pend =>
    if pyIsSpace c then
      if pend.isEmpty then
        if c = '\n' then splitParagraphsGo rem seg [c]
        else splitParagraphsGo rem (c :: seg) pend
      else splitParagraphsGo rem seg (c :: pend)
    else
      if pend.isEmpty then splitParagraphsGo rem (c :: seg) pend
      else
        match splitPending pend with
        | (true, pref) => seg.reverse :: splitParagraphsGo rem (c :: pref) []
        | (false, _) => splitParagraphsGo rem (c :: (pend ++ seg)) []

/-- re.split on blank-line boundaries, used by the paragraph fallback of
split_into_sentences. -/
def splitParagraphs (t : List Char) : List (List Char) := splitParagraphsGo t [] []

/-- split_into_sentences from document_processor.py. -/
def split_into_sentences (text : List Char) : List (List Char) :=
  let t := normalizeWs text
  if t = [] then []
  else
    let scanned := scanSentences t
    let sentences :=
      if scanned.2 < t.length then
        let remaining := pyStrip (t.drop scanned.2)
        if remaining = [] then scanned.1 else scanned.1 ++ [remaining]
      else scanned.1
    let sentences :=
      if sentences.length ≤ 1 && decide (200 < t.length) then
        let paragraphs := splitParagraphs t
        if 1 < paragraphs.length then
          (paragraphs.map pyStrip).filter (fun p => p ≠ [])
        else sentences
      else sentences
    if sentences = [] then [t] else sentences

/-- Python " ".join. -/
def joinWithSpace : List (List Char) → List Char
  | [] => []
  | [s] => s
  | s :: t :: rest => s ++ ' ' :: joinWithSpace (t :: rest)

/-- Sum of the lengths of the members of a list of strings. -/
def sumLen (ls : List (List Char)) : Nat := (ls.map List.length).sum

/-- The loop body of _get_overlap_sentences: walk the sentences of the
previous chunk from the end, keeping each sentence (plus a joining
space when one is already kept) while the total stays within the
overlap budget. -/
def overlapGo (maxChars : Nat) : List (List Char) → List (List Char) → Nat → List (List Char)
  | [], ov, _ => ov
  | s :: rest, ov, total =>
    let slen := s.length + (if ov.isEmpty then 0 else 1)
    if maxChars < total + slen then ov
    else overlapGo maxChars rest (s :: ov) (total + slen)

/-- _get_overlap_sentences from document_processor.py. -/
def get_overlap_sentences (sentences : List (List Char)) (maxOverlapChars : Nat) :
    List (List Char) :=
  overlapGo maxOverlapChars sentences.reverse [] 0

/-- The sentence-packing loop of chunk_text_by_sentences, carrying the
current chunk's sentences and the bookkeeping length current_length. -/
def chunkLoop (target overlap : Nat) :
    List (List Char) → List (List Char) → Nat → List (List Char)
  | [], current, _ =>
    if current.isEmpty then [] else [joinWithSpace current]
  | s :: rest, current, curLen =>
    if target < s.length then
      (if current.isEmpty then [] else [joinWithSpace current]) ++
        s :: chunkLoop target overlap rest [] 0
    else
      let newLen := curLen + s.length + (if current.isEmpty then 0 else 1)
      if target < newLen && !current.isEmpty then
        let ov := get_overlap_sentences current overlap
        joinWithSpace current ::
          chunkLoop target overlap rest (ov ++ [s])
            (sumLen (ov ++ [s]) + (ov ++ [s]).length - 1)
      else chunkLoop target overlap rest (current ++ [s]) newLen

/-- chunk_text_by_sentences from document_processor.py. -/
def chunk_text_by_sentences (text : List Char) (target_chunk_size overlap_size : Nat) :
    List (List Char) :=
  let sentences := split_into_sentences text
  if sentences.isEmpty then []
  else
    let totalLen := sumLen sentences + sentences.length - 1
    if totalLen ≤ target_chunk_size then [joinWithSpace sentences]
    else chunkLoop target_chunk_size overlap_size sentences [] 0

/-- _get_page_for_position's scanning loop: first 1-indexed page whose
break position is strictly beyond the character position. -/
def pageGo (pos : Nat) : List Nat → Nat → Option Nat
  | [], _ => none
  | bp :: rest, i => if pos < bp then some (i + 1) else pageGo pos rest (i + 1)

/-- _get_page_for_position from document_processor.py. -/
def get_page_for_position (charPosition : Nat) (pageBreaks : List Nat) : Option Nat :=
  if pageBreaks.isEmpty then none
  else
    match pageGo charPosition pageBreaks 0 with
    | some p => some p
    | none => some pageBreaks.length

/-- One record of VectorStore.search output: id, similarity score and the
payload fields read by the retriever. -/
structure SearchResult where
  id : String
  score : ℚ
  documentId : String
  documentName : String
  pageNumber : Option Nat
  textContent : String
deriving DecidableEq

/-- RetrievedChunk from retrieval.py. -/
structure RetrievedChunk where
  chunk_id : String
  document_id : String
  document_name : String
  page_number : Option Nat
  text_content : String
  similarity : ℚ
deriving DecidableEq

/-- The all_results dictionary update: a result is stored only on the
first occurrence of its chunk id (insertion order preserved). -/
def insertFirst (acc : List SearchResult) (r : SearchResult) : List SearchResult :=
  if acc.any (fun q => q.id = r.id) then acc else acc ++ [r]

/-- The best_vector_scores dictionary update: record the score on first
sight, otherwise replace the stored score by the max of it and the new
one. -/
def updateBest : List (String × ℚ) → String × ℚ → List (String × ℚ)
  | [], p => [p]
  | q :: rest, p =>
    if q.1 = p.1 then (q.1, max q.2 p.2) :: rest else q :: updateBest rest p

/-- Dictionary lookup in an association list with unique keys. -/
def lookupScore : List (String × ℚ) → String → Option ℚ
  | [], _ => none
  | q :: rest, i => if q.1 = i then some q.2 else lookupScore rest i

/-- The merge/dedupe loop of RetrieverService.retrieve over the search
results of all query variations: build all_results (first occurrence
per id) and best_vector_scores (max score per id). -/
def mergeResults (searchResults : List (List SearchResult)) :
    List SearchResult × List (String × ℚ) :=
  searchResults.foldl
    (fun st results =>
      results.foldl
        (fun st r => (insertFirst st.1 r, updateBest st.2 (r.id, r.score))) st)
    ([], [])

/-- best_vector_scores after the merge loop. -/
def bestVectorScores (searchResults : List (List SearchResult)) : List (String × ℚ) :=
  (mergeResults searchResults).2

/-- Insert x in front of the first element whose key is not larger,
keeping earlier elements with equal keys in front of it. -/
def insertDescBy {α : Type} (key : α → ℚ) (x : α) : List α → List α
  | [] => [x]
  | y :: ys => if key y ≤ key x then x :: y :: ys else y :: insertDescBy key x ys

/-- Stable sort, descending by key: the behaviour of Python's stable
list.sort with reverse set, as used on scores in the retriever and the
reranker. -/
def sortDescBy {α : Type} (key : α → ℚ) : List α → List α
  | [] => []
  | x :: xs => insertDescBy key x (sortDescBy key xs)

/-- Index of a string in a list; equals the list length when absent,
matching dict.get with the list length as default in the rank lookup. -/
def idxOf (id : String) : List String → Nat
  | [] => 0
  | x :: xs => if x = id then 0 else idxOf id xs + 1

/-- Pointwise max of the running combined scores with one variation's
score list: entries beyond the score list are unchanged, entries beyond
the running list are dropped (the enumerate-and-update loop only writes
existing indices). -/
def combineOne : List ℚ → List ℚ → List ℚ
  | [], _ => []
  | a :: acc, [] => a :: combineOne acc []
  | a :: acc, sc :: scores => max a sc :: combineOne acc scores

/-- combined_bm25_scores: starting from zeros, take the pointwise max
with the score list of each query variation. -/
def combineScores (n : Nat) (lists : List (List ℚ)) : List ℚ :=
  lists.foldl combineOne (List.replicate n 0)

/-- The reciprocal-rank-fusion formula with fusion constant 60. -/
def rrf60 (v l : Nat) : ℚ := 1 / (60 + (v : ℚ)) + 1 / (60 + (l : ℚ))

/-- bm25_ranked_indices mapped to chunk ids: candidate ids ordered by
descending combined lexical score. -/
def lexRankedIds (pool : List SearchResult) (combined : List ℚ) : List String :=
  (sortDescBy (fun i => combined.getD i 0) (List.range pool.length)).filterMap
    (fun i => (pool.get? i).map (fun r => r.id))

/-- fused_scores entry for one candidate id: RRF over its vector rank
(position in the vector-ordered pool) and its lexical rank. -/
def fusedScore (pool : List SearchResult) (combined : List ℚ) (id : String) : ℚ :=
  rrf60 (idxOf id (pool.map (fun r => r.id))) (idxOf id (lexRankedIds pool combined))

/-- The final chunk built for one id at the end of retrieve, with the
display similarity min of fused score times 30 and 1. -/
def buildChunk (pool : List SearchResult) (combined : List ℚ) (id : String) :
    Option RetrievedChunk :=
  (pool.find? (fun r => r.id = id)).map (fun r =>
    { chunk_id := id
      document_id := r.documentId
      document_name := r.documentName
      page_number := r.pageNumber
      text_content := r.textContent
      similarity := min (fusedScore pool combined id * 30) 1 })

/-- RetrieverService.retrieve from retrieval.py.  The external calls are
parameters: searchResults holds the vector-store answers, one list per
query variation, and bm25ScoreLists holds the BM25 score list of each
variation over the filtered candidate pool. -/
def retrieve (searchResults : List (List SearchResult)) (bm25ScoreLists : List (List ℚ))
    (top_k : Nat) (similarity_threshold : ℚ) : List RetrievedChunk :=
  let allResults := (mergeResults searchResults).1
  let best := (mergeResults searchResults).2
  if allResults.isEmpty then []
  else
    let filtered := allResults.filter (fun r =>
      match lookupScore best r.id with
      | some sc => similarity_threshold ≤ sc
      | none => false)
    if filtered.isEmpty then []
    else
      let pool := sortDescBy (fun r => (lookupScore best r.id).getD r.score) filtered
      let combined := combineScores pool.length bm25ScoreLists
      let sortedIds := sortDescBy (fusedScore pool combined) (pool.map (fun r => r.id))
      (sortedIds.take top_k).filterMap (buildChunk pool combined)

/-- A chunk after reranking; its display similarity is real-valued
because the sigmoid is transcendental. -/
structure RerankedChunk where
  chunk_id : String
  document_id : String
  document_name : String
  page_number : Option Nat
  text_content : String
  similarity : ℝ

/-- The logistic transform applied to a raw cross-encoder score in
reranker.py: one over one plus 2.718281828 to the minus score. -/
noncomputable def sigmoid (score : ℚ) : ℝ :=
  1 / (1 + (2.718281828 : ℝ) ^ (-(score : ℝ)))

/-- Carry a retrieved chunk over unchanged (pass-through branch of
rerank_chunks for at most one candidate). -/
noncomputable def passThrough (c : RetrievedChunk) : RerankedChunk :=
  { chunk_id := c.chunk_id
    document_id := c.document_id
    document_name := c.document_name
    page_number := c.page_number
    text_content := c.text_content
    similarity := (c.similarity : ℝ) }

/-- rerank_chunks from reranker.py.  The cross-encoder call is a
parameter: scores lists the raw relevance score of each (query, chunk)
pair, in chunk order. -/
noncomputable def rerank_chunks (chunks : List RetrievedChunk) (scores : List ℚ)
    (top_k : Nat) : List RerankedChunk :=
  if chunks.length ≤ 1 then chunks.map passThrough
  else
    let scored := chunks.zip scores
    let sorted := sortDescBy (fun p => p.2) scored
    (sorted.take top_k).map (fun p =>
      { chunk_id := p.1.chunk_id
        document_id := p.1.document_id
        document_name := p.1.document_name
        page_number := p.1.page_number
        text_content := p.1.text_content
        similarity := sigmoid p.2 })

/-- ConfidenceLevel from schemas.py. -/
inductive ConfidenceLevel where
  | high
  | medium
  | low
deriving DecidableEq

/-- AnswerGenerator.calculate_confidence from answer_generator.py. -/
def calculate_confidence (avg_similarity : ℚ) (num_chunks : Nat)
    (answer_length : Nat) (contains_citation : Bool) : ConfidenceLevel :=
  if 0.7 < avg_similarity ∧ 3 ≤ num_chunks ∧ contains_citation then .high
  else if 0.55 < avg_similarity ∧ 2 ≤ num_chunks then .medium
  else .low

/-- The JSON values distinguished by expand_query: json.loads may yield
a string, a list, or anything else. -/
inductive PyJson where
  | jstr (s : String)
  | jlist (items : List PyJson)
  | jother

/-- The environment of expand_query: whether constructing the completion
client raises, the outcome of the completion call (exception, or a
response whose content may be missing), and the behaviour of the JSON
parse. -/
structure ExpanderEnv where
  clientRaises : Bool
  completion : Except Unit (Option String)
  jsonParse : String → Except Unit PyJson

/-- Python str.lower on ASCII strings. -/
def pyLowerStr (s : String) : String := String.map pyToLower s

/-- The regex search for a bracketed span (greedy, dot matching all):
the leftmost opening bracket together with the last closing bracket
after it, when such a pair exists. -/
def findJsonSpan (content : String) : Option String :=
  let cs := content.toList
  match cs.findIdx? (fun c => c = '['), lastIdxAux cs with
  | some i, some j => if i < j then some (String.mk (sliceL cs i (j + 1))) else none
  | _, _ => none
where
  /-- Index of the last closing bracket. -/
  lastIdxAux (cs : List Char) : Option Nat :=
    match cs.reverse.findIdx? (fun c => c = ']') with
    | none => none
    | some k => some (cs.length - 1 - k)

/-- The list comprehension keeping at most the given alternatives that
differ case-insensitively from the query; taking lower() of a
non-string alternative raises (AttributeError). -/
def keepAlternatives (query : String) : List PyJson → Except Unit (List String)
  | [] => .ok []
  | .jstr str :: rest =>
    match keepAlternatives query rest with
    | .error e => .error e
    | .ok tail =>
      .ok (if pyLowerStr str ≠ pyLowerStr query then str :: tail else tail)
  | _ :: _ => .error ()

/-- The body of the try block of expand_query: call the completion
service, locate a JSON array in the response, parse it, and keep up to
two alternatives that differ case-insensitively from the query.  An ok
none outcome means the try block fell through without returning; an
error means an exception was raised inside the try block (and will be
swallowed). -/
def expandAttempt (env : ExpanderEnv) (query : String) :
    Except Unit (Option (List String)) :=
  match env.completion with
  | .error e => .error e
  | .ok contentOpt =>
    match findJsonSpan (contentOpt.getD "") with
    | none => .ok none
    | some arr =>
      match env.jsonParse arr with
      | .error e => .error e
      | .ok (.jlist alternatives) =>
        if 1 ≤ alternatives.length then
          match keepAlternatives query (alternatives.take 2) with
          | .error e => .error e
          | .ok kept => .ok (some (query :: kept))
        else .ok none
      | .ok _ => .ok none

/-- expand_query from query_expander.py: get_groq_client runs outside
the try block, so a raising client constructor propagates; every
exception inside the try block, and every fall-through, yields the
original query alone. -/
def expand_query (env : ExpanderEnv) (query : String) : Except Unit (List String) :=
  if env.clientRaises then throw ()
  else
    match expandAttempt env query with
    | .ok (some l) => .ok l
    | .ok none => .ok [query]
    | .error _ => .ok [query]

/-- Option-valued maximum of a list of rationals. -/
def maxQ? : List ℚ → Option ℚ
  | [] => none
  | x :: xs =>
    match maxQ? xs with
    | none => some x
    | some m => some (max x m)

/-- Combine a present best score with the maximum of newly observed
scores. -/
def combineOpt : Option ℚ → Option ℚ → Option ℚ
  | none, m => m
  | some t, none => some t
  | some t, some m => some (max t m)

/-- The id/score pairs observed across all variations, in processing
order. -/
def pairsOf (searchResults : List (List SearchResult)) : List (String × ℚ) :=
  searchResults.flatten.map (fun r => (r.id, r.score))

/-- All vector scores observed for one chunk id across all query
variations. -/
def scoresFor (id : String) (searchResults : List (List SearchResult)) : List ℚ :=
  ((pairsOf searchResults).filter (fun p => p.1 = id)).map Prod.snd

/-- Three sentences of lengths 9, 19 and 9: the middle chunk produced at
target 20 with overlap 10 collects an overlap sentence plus a new
sentence and exceeds the target. -/
def c1Text : List Char := "Aaaaaaaa. Bbbbbbbbbbbbbbbbbb. Cccccccc.".toList

/-- The end-to-end chunking example with the abbreviation Dr. -/
def c8Text : List Char := "Dr. Lee joined in 2020. She leads the robotics lab.".toList

/-- Two long paragraphs separated by a blank line, with no
sentence-ending punctuation: longer than 200 characters, so the
paragraph fallback of split_into_sentences is supposed to apply. -/
def c9Text : List Char :=
  List.replicate 120 'a' ++ '\n' :: '\n' :: List.replicate 120 'b'

/-- Example vector-search result. -/
def exSR1 : SearchResult := ⟨"c1", 1/2, "d1", "doc.pdf", some 1, "alpha beta"⟩

/-- Example vector-search result. -/
def exSR2 : SearchResult := ⟨"c2", 2/5, "d1", "doc.pdf", some 2, "gamma"⟩

/-- The chunk retrieve builds for exSR1 in the witness scenario. -/
def exChunkOut : RetrievedChunk := ⟨"c1", "d1", "doc.pdf", some 1, "alpha beta", 1⟩

/-- Example retrieved chunk fed to the reranker. -/
def exRC1 : RetrievedChunk := ⟨"c1", "d1", "doc.pdf", some 1, "alpha beta", 1⟩

/-- Example retrieved chunk fed to the reranker. -/
def exRC2 : RetrievedChunk := ⟨"c2", "d1", "doc.pdf", some 2, "gamma", 60/61⟩

/-- The reranked chunk for exRC1 at cross-encoder score 2. -/
noncomputable def exRer1 : RerankedChunk :=
  ⟨"c1", "d1", "doc.pdf", some 1, "alpha beta", sigmoid 2⟩

/-- The reranked chunk for exRC2 at cross-encoder score minus 1. -/
noncomputable def exRer2 : RerankedChunk :=
  ⟨"c2", "d1", "doc.pdf", some 2, "gamma", sigmoid (-1)⟩

/-- Expansion environment whose client constructor raises. -/
def c6EnvRaise : ExpanderEnv :=
  ⟨true, Except.ok (some "[]"), fun _ => Except.error ()⟩

/-- Expansion environment with a healthy completion call returning two
alternatives. -/
def c6EnvOk : ExpanderEnv :=
  ⟨false, Except.ok (some "here: [\"Alpha\", \"beta\"]"),
   fun _ => Except.ok (PyJson.jlist [PyJson.jstr "Alpha", PyJson.jstr "beta"])⟩

/-- Claim C8: chunking the text about Dr. Lee with target 40 and overlap
10 yields exactly the two sentences; the period after the abbreviation
Dr is not a sentence boundary, while the one after 2020 is. -/
theorem c8_abbreviation_chunking :
    chunk_text_by_sentences c8Text 40 10 =
      ["Dr. Lee joined in 2020.".toList, "She leads the robotics lab.".toList]
    ∧ is_sentence_boundary c8Text 3 = false
    ∧ is_sentence_boundary c8Text 23 = true := by
  refine ⟨by decide, by decide, by decide⟩

/-- Claim C5: calculate_confidence applies the three tiers in strict
order - HIGH iff similarity above 0.7, at least 3 chunks and a citation;
else MEDIUM iff similarity above 0.55 and at least 2 chunks; else LOW -
and the literal cases of the spec evaluate accordingly. -/
theorem c5_confidence_tiers (avg : ℚ) (n len : Nat) (cit : Bool) :
    (calculate_confidence avg n len cit = .high ↔
      (0.7 < avg ∧ 3 ≤ n ∧ cit = true))
  ∧ (calculate_confidence avg n len cit = .medium ↔
      (¬(0.7 < avg ∧ 3 ≤ n ∧ cit = true) ∧ 0.55 < avg ∧ 2 ≤ n))
  ∧ (calculate_confidence avg n len cit = .low ↔
      (¬(0.7 < avg ∧ 3 ≤ n ∧ cit = true) ∧ ¬(0.55 < avg ∧ 2 ≤ n)))
  ∧ calculate_confidence 0.8 3 len true = .high
  ∧ calculate_confidence 0.6 2 len false = .medium
  ∧ calculate_confidence 0.3 1 len cit = .low
  ∧ calculate_confidence 0 0 len cit = .low := by
  unfold calculate_confidence
  refine ⟨?_, ?_, ?_, ?_, ?_, ?_, ?_⟩
  · split_ifs with h1 h2 <;> simp_all
  · split_ifs with h1 h2 <;> simp_all
  · split_ifs with h1 h2 <;> simp_all
  · norm_num
  · norm_num
  · split_ifs with h1 h2 <;> [skip; skip; rfl] <;> exfalso <;> [exact absurd h1.1 (by norm_num); exact absurd h2.1 (by norm_num)]
  · split_ifs with h1 h2 <;> [skip; skip; rfl] <;> exfalso <;> [exact absurd h1.1 (by norm_num); exact absurd h2.1 (by norm_num)]

/-- Bounds for the page loop: any page it yields is between i+1 and i
plus the number of remaining breaks. -/
theorem pageGo_bounds (pos : Nat) :
    ∀ (l : List Nat) (i p : Nat), pageGo pos l i = some p →
      i + 1 ≤ p ∧ p ≤ i + l.length := by
  intro l
  induction l with
  | nil => intro i p h; simp [pageGo] at h
  | cons b rest ih =>
    intro i p h
    unfold pageGo at h
    split at h
    · cases h
      simp
    · have := ih (i + 1) p h
      simp only [List.length_cons]
      omega

/-- When the position is at or beyond every break, the page loop finds
nothing. -/
theorem pageGo_none (pos : Nat) :
    ∀ (l : List Nat) (i : Nat), (∀ b ∈ l, b ≤ pos) → pageGo pos l i = none := by
  intro l
  induction l with
  | nil => intro i _; rfl
  | cons b rest ih =>
    intro i h
    unfold pageGo
    have hb : b ≤ pos := h b (List.mem_cons_self _ _)
    rw [if_neg (by omega)]
    exact ih (i + 1) (fun x hx => h x (List.mem_cons_of_mem _ hx))

/-- Claim C10: get_page_for_position returns none exactly for an empty
break list; otherwise the page is between 1 and the number of breaks,
and a position at or beyond every break is clamped to the last page. -/
theorem c10_page_for_position (pos : Nat) (breaks : List Nat) :
    (get_page_for_position pos breaks = none ↔ breaks = [])
  ∧ (∀ p, get_page_for_position pos breaks = some p → 1 ≤ p ∧ p ≤ breaks.length)
  ∧ (breaks ≠ [] → (∀ b ∈ breaks, b ≤ pos) →
      get_page_for_position pos breaks = some breaks.length) := by
  unfold get_page_for_position
  refine ⟨?_, ?_, ?_⟩
  · constructor
    · intro h
      by_cases he : breaks = []
      · exact he
      · exfalso
        rw [if_neg (by simpa [List.isEmpty_iff] using he)] at h
        rcases hg : pageGo pos breaks 0 with _ | q <;> rw [hg] at h <;> simp at h
    · intro h
      subst h
      rfl
  · intro p h
    by_cases he : breaks = []
    · subst he
      simp at h
    · rw [if_neg (by simpa [List.isEmpty_iff] using he)] at h
      rcases hg : pageGo pos breaks 0 with _ | q <;> rw [hg] at h
      · simp only [Option.some.injEq] at h
        subst h
        have : 0 < breaks.length := List.length_pos.mpr he
        omega
      · simp only [Option.some.injEq] at h
        subst h
        have := pageGo_bounds pos breaks 0 q hg
        omega
  · intro hne hall
    rw [if_neg (by simpa [List.isEmpty_iff] using hne)]
    rw [pageGo_none pos breaks 0 hall]

/-- Witness for claim C10 at position 100 with breaks 10 and 50: the
out-of-range position is clamped to page 2, and a hit on page 1 is in
range. -/
theorem c10_witness :
    get_page_for_position 100 [10, 50] = some ([10, 50] : List Nat).length
    ∧ (1 ≤ 1 ∧ 1 ≤ ([10, 50] : List Nat).length) :=
  ⟨(c10_page_for_position 100 [10, 50]).2.2 (by decide) (by decide),
   (c10_page_for_position 5 [10, 50]).2.1 1 (by decide)⟩

/-- Each reciprocal-rank term is strictly positive. -/
theorem rrf60_term_pos (v : Nat) : 0 < (1 : ℚ) / (60 + (v : ℚ)) := by
  apply div_pos one_pos
  have : (0 : ℚ) ≤ (v : ℚ) := Nat.cast_nonneg v
  linarith

/-- Each reciprocal-rank term is at most 1/60, strictly below it for a
nonzero rank. -/
theorem rrf60_term_le (v : Nat) : (1 : ℚ) / (60 + (v : ℚ)) ≤ 1 / 60 := by
  apply one_div_le_one_div_of_le (by norm_num)
  have : (0 : ℚ) ≤ (v : ℚ) := Nat.cast_nonneg v
  linarith

/-- A nonzero rank makes its reciprocal-rank term strictly smaller than
1/60. -/
theorem rrf60_term_lt (v : Nat) (h : v ≠ 0) :
    (1 : ℚ) / (60 + (v : ℚ)) < 1 / 60 := by
  apply one_div_lt_one_div_of_lt (by norm_num)
  have : (1 : ℚ) ≤ (v : ℚ) := by exact_mod_cast Nat.one_le_iff_ne_zero.mpr h
  linarith

/-- Claim C3: the fused score of any candidate is the sum of the
reciprocals of 60 plus its vector rank and 60 plus its lexical rank;
it is strictly positive, at most 2/60, and attains 2/60 exactly for a
candidate ranked 0 in both channels. -/
theorem c3_fused_score (pool : List SearchResult) (combined : List ℚ) (id : String) :
    fusedScore pool combined id =
      1 / (60 + (idxOf id (pool.map (fun r => r.id)) : ℚ)) +
        1 / (60 + (idxOf id (lexRankedIds pool combined) : ℚ))
  ∧ 0 < fusedScore pool combined id
  ∧ fusedScore pool combined id ≤ 2 / 60
  ∧ (fusedScore pool combined id = 2 / 60 ↔
      idxOf id (pool.map (fun r => r.id)) = 0 ∧
        idxOf id (lexRankedIds pool combined) = 0) := by
  set v := idxOf id (pool.map (fun r => r.id)) with hv
  set l := idxOf id (lexRankedIds pool combined) with hl
  have hdef : fusedScore pool combined id = 1 / (60 + (v : ℚ)) + 1 / (60 + (l : ℚ)) := rfl
  refine ⟨hdef, ?_, ?_, ?_⟩
  · rw [hdef]
    have := rrf60_term_pos v
    have := rrf60_term_pos l
    linarith
  · rw [hdef]
    have h1 := rrf60_term_le v
    have h2 := rrf60_term_le l
    have h3 : (2 : ℚ) / 60 = 1 / 60 + 1 / 60 := by norm_num
    rw [h3]
    exact add_le_add h1 h2
  · rw [hdef]
    constructor
    · intro h
      by_contra hvl
      have hcase : v ≠ 0 ∨ l ≠ 0 := by tauto
      have h3 : (2 : ℚ) / 60 = 1 / 60 + 1 / 60 := by norm_num
      have hlt : (1 : ℚ) / (60 + (v : ℚ)) + 1 / (60 + (l : ℚ)) < 2 / 60 := by
        rw [h3]
        rcases hcase with hv0 | hl0
        · exact add_lt_add_of_lt_of_le (rrf60_term_lt v hv0) (rrf60_term_le l)
        · exact add_lt_add_of_le_of_lt (rrf60_term_le v) (rrf60_term_lt l hl0)
      rw [h] at hlt
      exact absurd hlt (lt_irrefl _)
    · rintro ⟨h1, h2⟩
      rw [h1, h2]
      norm_num

/-- combineOpt with no new observation keeps the old best. -/
theorem combineOpt_none (o : Option ℚ) : combineOpt o none = o := by
  cases o <;> rfl

/-- Looking up after one best-score update: the updated key maps to the
max of its old best (when present) and the new score; other keys are
untouched. -/
theorem updateBest_lookup (acc : List (String × ℚ)) (p : String × ℚ) (id : String) :
    lookupScore (updateBest acc p) id =
      if p.1 = id then
        some ((lookupScore acc id).elim p.2 (fun t => max t p.2))
      else lookupScore acc id := by
  induction acc with
  | nil =>
    simp only [updateBest, lookupScore]
    by_cases h : p.1 = id <;> simp [h, Option.elim]
  | cons q rest ih =>
    simp only [updateBest]
    by_cases hqp : q.1 = p.1
    · rw [if_pos hqp]
      simp only [lookupScore]
      by_cases hq : q.1 = id
      · have hp : p.1 = id := by rw [← hqp]; exact hq
        simp [hq, hp, Option.elim]
      · have hp : ¬ p.1 = id := by rw [← hqp]; exact hq
        simp [hq, hp]
    · rw [if_neg hqp]
      simp only [lookupScore]
      by_cases hq : q.1 = id
      · have hp : ¬ p.1 = id := by
          intro h
          exact hqp (by rw [hq, ← h])
        simp [hq, hp]
      · simp only [hq, if_false, ite_false]
        rw [ih]

/-- Folding best-score updates over observed pairs computes, per id, the
max of the previous best and all newly observed scores. -/
theorem foldl_updateBest_lookup (ps : List (String × ℚ)) :
    ∀ (acc : List (String × ℚ)) (id : String),
      lookupScore (ps.foldl updateBest acc) id =
        combineOpt (lookupScore acc id)
          (maxQ? ((ps.filter (fun p => p.1 = id)).map Prod.snd)) := by
  induction ps with
  | nil =>
    intro acc id
    simp [List.foldl_nil, List.filter_nil, maxQ?, combineOpt_none]
  | cons p ps ih =>
    intro acc id
    simp only [List.foldl_cons]
    rw [ih (updateBest acc p) id, updateBest_lookup]
    by_cases hid : p.1 = id
    · rw [if_pos hid]
      have hf : decide (p.1 = id) = true := by simp [hid]
      simp only [List.filter_cons, hf, if_pos, List.map_cons]
      rcases hA : lookupScore acc id with _ | t <;>
        rcases hM : maxQ? ((ps.filter (fun q => q.1 = id)).map Prod.snd) with _ | m <;>
          simp [combineOpt, maxQ?, hM, hA, Option.elim, max_assoc]
    · rw [if_neg hid]
      have hf : decide (p.1 = id) = false := by simp [hid]
      simp only [List.filter_cons, hf]
      simp

/-- The second component of the inner merge fold is the best-score fold
over that variation's pairs. -/
theorem mergeInner_snd (results : List SearchResult) :
    ∀ (st : List SearchResult × List (String × ℚ)),
      (results.foldl
        (fun st r => (insertFirst st.1 r, updateBest st.2 (r.id, r.score))) st).2 =
      (results.map (fun r => (r.id, r.score))).foldl updateBest st.2 := by
  induction results with
  | nil => intro st; rfl
  | cons r rest ih =>
    intro st
    simp only [List.foldl_cons, List.map_cons]
    rw [ih]

/-- The best-score dictionary of the whole merge loop is the best-score
fold over all observed pairs in processing order. -/
theorem mergeResults_snd (lists : List (List SearchResult)) :
    ∀ (st : List SearchResult × List (String × ℚ)),
      ((lists.foldl
        (fun st results =>
          results.foldl
            (fun st r => (insertFirst st.1 r, updateBest st.2 (r.id, r.score))) st)
        st).2) =
      (lists.flatten.map (fun r => (r.id, r.score))).foldl updateBest st.2 := by
  induction lists with
  | nil => intro st; rfl
  | cons l rest ih =>
    intro st
    simp only [List.foldl_cons, List.flatten_cons, List.map_append, List.foldl_append]
    rw [ih, mergeInner_snd]

/-- Keys after one best-score update: unchanged for a known id, extended
at the back for a new id. -/
theorem updateBest_keys (acc : List (String × ℚ)) (p : String × ℚ) :
    (updateBest acc p).map Prod.fst =
      if p.1 ∈ acc.map Prod.fst then acc.map Prod.fst
      else acc.map Prod.fst ++ [p.1] := by
  induction acc with
  | nil => simp [updateBest]
  | cons q rest ih =>
    by_cases hqp : q.1 = p.1
    · simp [updateBest, hqp]
    · have hne : p.1 ≠ q.1 := fun h => hqp h.symm
      by_cases hmem : p.1 ∈ rest.map Prod.fst
      · simp [updateBest, hqp, hmem, hne, ih]
      · simp [updateBest, hqp, hmem, hne, ih]

/-- The best-score fold keeps its keys without duplicates. -/
theorem foldl_updateBest_nodup (ps : List (String × ℚ)) :
    ∀ (acc : List (String × ℚ)), (acc.map Prod.fst).Nodup →
      ((ps.foldl updateBest acc).map Prod.fst).Nodup := by
  induction ps with
  | nil => intro acc h; exact h
  | cons p ps ih =>
    intro acc h
    simp only [List.foldl_cons]
    apply ih
    rw [updateBest_keys]
    by_cases hmem : p.1 ∈ acc.map Prod.fst
    · rwa [if_pos hmem]
    · rw [if_neg hmem]
      simp [List.nodup_append, h, hmem]

/-- Claim C4: after the merge across query variations, each chunk id is
recorded once, with best vector score equal to the maximum of all
scores observed for it (for example 0.80 and 0.65 merge to 0.80); the
maximum is independent of processing order. -/
theorem c4_merge_best_scores (searchResults : List (List SearchResult)) (id : String) :
    lookupScore (bestVectorScores searchResults) id = maxQ? (scoresFor id searchResults)
  ∧ ((bestVectorScores searchResults).map Prod.fst).Nodup := by
  constructor
  · show lookupScore (mergeResults searchResults).2 id = _
    unfold mergeResults
    rw [mergeResults_snd]
    rw [foldl_updateBest_lookup]
    simp only [lookupScore]
    rfl
  · show ((mergeResults searchResults).2.map Prod.fst).Nodup
    unfold mergeResults
    rw [mergeResults_snd]
    exact foldl_updateBest_nodup _ [] (by simp)

/-- Joining a two-or-more list inserts one space after the head. -/
theorem joinWithSpace_cons (s : List Char) (rest : List (List Char)) (h : rest ≠ []) :
    joinWithSpace (s :: rest) = s ++ ' ' :: joinWithSpace rest := by
  cases rest with
  | nil => exact absurd rfl h
  | cons t ts => rfl

/-- Length of a join with a nonempty tail. -/
theorem length_joinWithSpace_cons (s : List Char) (rest : List (List Char)) (h : rest ≠ []) :
    (joinWithSpace (s :: rest)).length = s.length + 1 + (joinWithSpace rest).length := by
  rw [joinWithSpace_cons s rest h]
  simp
  omega

/-- The overlap loop only returns suffixes of the reversed input glued
to the already-kept sentences. -/
theorem overlapGo_suffix (m : Nat) :
    ∀ (rest ov : List (List Char)) (total : Nat),
      (overlapGo m rest ov total).IsSuffix (rest.reverse ++ ov) := by
  intro rest
  induction rest with
  | nil =>
    intro ov total
    simp [overlapGo]
  | cons s rest ih =>
    intro ov total
    simp only [overlapGo]
    split <;> split
    all_goals try exact List.suffix_append _ ov
    all_goals
      have heq : rest.reverse ++ s :: ov = (s :: rest).reverse ++ ov := by simp
      rw [← heq]
      exact ih (s :: ov) _

/-- The overlap loop keeps the joined length within the budget. -/
theorem overlapGo_len (m : Nat) :
    ∀ (rest ov : List (List Char)) (total : Nat),
      total = (joinWithSpace ov).length → total ≤ m →
      (joinWithSpace (overlapGo m rest ov total)).length ≤ m := by
  intro rest
  induction rest with
  | nil =>
    intro ov total he hle
    simp only [overlapGo]
    rw [← he]
    exact hle
  | cons s rest ih =>
    intro ov total he hle
    simp only [overlapGo]
    split <;> split
    · rw [← he]; exact hle
    · rename_i hov hns
      have hnil : ov = [] := List.isEmpty_iff.mp hov
      subst hnil
      apply ih
      · simp [joinWithSpace] at he
        simp [joinWithSpace, he]
      · omega
    · rw [← he]; exact hle
    · rename_i hov hns
      have hnil : ov ≠ [] := by
        intro h
        subst h
        simp at hov
      apply ih
      · rw [length_joinWithSpace_cons s ov hnil]
        omega
      · omega

/-- Claim C7: the sentences carried over as overlap into the next chunk
are a contiguous suffix of the previous chunk's sentence list, their
joined length (spaces included) is at most the overlap bound, and when
the packing loop flushes a chunk it seeds the next one with exactly
those overlap sentences followed by the incoming sentence. -/
theorem c7_overlap_suffix_bounded (sentences : List (List Char)) (maxOverlapChars : Nat) :
    (get_overlap_sentences sentences maxOverlapChars).IsSuffix sentences
  ∧ (joinWithSpace (get_overlap_sentences sentences maxOverlapChars)).length ≤
      maxOverlapChars
  ∧ (∀ (target overlap curLen : Nat) (s : List Char) (rest current : List (List Char)),
      ¬ target < s.length →
      target < curLen + s.length + (if current.isEmpty then 0 else 1) →
      current ≠ [] →
      chunkLoop target overlap (s :: rest) current curLen =
        joinWithSpace current ::
          chunkLoop target overlap rest (get_overlap_sentences current overlap ++ [s])
            (sumLen (get_overlap_sentences current overlap ++ [s]) +
              (get_overlap_sentences current overlap ++ [s]).length - 1)) := by
  refine ⟨?_, ?_, ?_⟩
  · have h := overlapGo_suffix maxOverlapChars sentences.reverse [] 0
    simpa [get_overlap_sentences] using h
  · exact overlapGo_len maxOverlapChars sentences.reverse [] 0 (by simp [joinWithSpace])
      (Nat.zero_le _)
  · intro target overlap curLen s rest current hs hflush hne
    have hemp : current.isEmpty = false := by
      simpa [List.isEmpty_iff] using hne
    simp only [chunkLoop, if_neg hs, hemp]
    rw [if_pos]
    simp only [Bool.not_false, Bool.and_true, decide_eq_true_eq]
    simpa [hemp] using hflush

/-- Witness for claim C7: two short sentences within an overlap budget
of 11, and a concrete flush of the packing loop at target 10. -/
theorem c7_witness :
    (get_overlap_sentences ["Aaaa.".toList, "Bbbb.".toList] 11).IsSuffix
      ["Aaaa.".toList, "Bbbb.".toList]
  ∧ (joinWithSpace
      (get_overlap_sentences ["Aaaa.".toList, "Bbbb.".toList] 11)).length ≤ 11
  ∧ chunkLoop 10 10 ["Bbbb.".toList] ["Aaaaaaaa.".toList] 9 =
      joinWithSpace ["Aaaaaaaa.".toList] ::
        chunkLoop 10 10 []
          (get_overlap_sentences ["Aaaaaaaa.".toList] 10 ++ ["Bbbb.".toList])
          (sumLen (get_overlap_sentences ["Aaaaaaaa.".toList] 10 ++ ["Bbbb.".toList]) +
            (get_overlap_sentences ["Aaaaaaaa.".toList] 10 ++ ["Bbbb.".toList]).length
            - 1) :=
  ⟨(c7_overlap_suffix_bounded ["Aaaa.".toList, "Bbbb.".toList] 11).1,
   (c7_overlap_suffix_bounded ["Aaaa.".toList, "Bbbb.".toList] 11).2.1,
   (c7_overlap_suffix_bounded [] 0).2.2 10 10 9 "Bbbb.".toList []
     ["Aaaaaaaa.".toList] (by decide) (by decide) (by decide)⟩

/-- The join length of a nonempty sentence list is the bookkeeping value
of the packing loop: total character count plus one space between
consecutive sentences. -/
theorem length_joinWithSpace_eq (ls : List (List Char)) (h : ls ≠ []) :
    (joinWithSpace ls).length = sumLen ls + ls.length - 1 := by
  induction ls with
  | nil => exact absurd rfl h
  | cons s rest ih =>
    cases rest with
    | nil => simp [joinWithSpace, sumLen]
    | cons t ts =>
      rw [length_joinWithSpace_cons s (t :: ts) (by simp)]
      rw [ih (by simp)]
      have hpos : 1 ≤ sumLen (t :: ts) + (t :: ts).length := by
        simp [sumLen]
        omega
      simp only [sumLen, List.map_cons, List.sum_cons, List.length_cons] at *
      omega

/-- Join length after appending one sentence at the back. -/
theorem length_joinWithSpace_append (xs : List (List Char)) (s : List Char) :
    (joinWithSpace (xs ++ [s])).length =
      if xs.isEmpty then s.length
      else (joinWithSpace xs).length + 1 + s.length := by
  induction xs with
  | nil => simp [joinWithSpace]
  | cons x xs ih =>
    rw [List.cons_append, length_joinWithSpace_cons x (xs ++ [s]) (by simp)]
    cases xs with
    | nil => simp [joinWithSpace, ih]
    | cons y ys =>
      rw [ih]
      simp only [List.isEmpty_cons, if_false, List.isEmpty_nil]
      rw [length_joinWithSpace_cons x (y :: ys) (by simp)]
      simp
      omega

/-- Size invariant of the packing loop: starting from a current chunk
whose joined length is the bookkeeping value and within target plus
overlap plus 1, every emitted chunk either stays within that bound or
is one of the remaining input sentences, longer than the target. -/
theorem chunkLoop_bound (target overlap : Nat) :
    ∀ (sentences current : List (List Char)) (curLen : Nat),
      curLen = (joinWithSpace current).length →
      (joinWithSpace current).length ≤ target + overlap + 1 →
      ∀ c ∈ chunkLoop target overlap sentences current curLen,
        c.length ≤ target + overlap + 1 ∨ (c ∈ sentences ∧ target < c.length) := by
  intro sentences
  induction sentences with
  | nil =>
    intro current curLen hlen hbound c hc
    simp only [chunkLoop] at hc
    split at hc
    · simp at hc
    · simp only [List.mem_singleton] at hc
      subst hc
      exact Or.inl hbound
  | cons s rest ih =>
    intro current curLen hlen hbound c hc
    simp only [chunkLoop] at hc
    split at hc
    · rename_i hbig
      rcases List.mem_append.mp hc with hc1 | hc2
      · left
        split at hc1
        · simp at hc1
        · simp only [List.mem_singleton] at hc1
          subst hc1
          exact hbound
      · rcases List.mem_cons.mp hc2 with hceq | hcr
        · subst hceq
          exact Or.inr ⟨List.mem_cons_self _ _, hbig⟩
        · rcases ih [] 0 (by simp [joinWithSpace]) (by simp [joinWithSpace]) c hcr with
            hb | ⟨hm, hl⟩
          · exact Or.inl hb
          · exact Or.inr ⟨List.mem_cons_of_mem _ hm, hl⟩
    · rename_i hsmall
      split at hc
      · -- the current chunk is empty: the flush condition cannot hold
        rename_i hemp
        have hnil : current = [] := List.isEmpty_iff.mp hemp
        subst hnil
        rw [if_neg (by simp)] at hc
        have hlen0 : curLen = 0 := by simpa [joinWithSpace] using hlen
        have hnew : curLen + s.length + 0 =
            (joinWithSpace (([] : List (List Char)) ++ [s])).length := by
          simp [joinWithSpace, hlen0]
        have hnewle :
            (joinWithSpace (([] : List (List Char)) ++ [s])).length ≤
              target + overlap + 1 := by
          simp only [List.nil_append]
          simp [joinWithSpace]
          omega
        rcases ih ([] ++ [s]) (curLen + s.length + 0) hnew hnewle c hc with hb | ⟨hm, hl⟩
        · exact Or.inl hb
        · exact Or.inr ⟨List.mem_cons_of_mem _ hm, hl⟩
      · rename_i hempf
        have hnemp : current ≠ [] := by
          intro h
          subst h
          simp at hempf
        have hempb : current.isEmpty = false := Bool.eq_false_iff.mpr hempf
        split at hc
        · -- flush: emit the current chunk, seed the next with the overlap
          rcases List.mem_cons.mp hc with hceq | hcr
          · subst hceq
            exact Or.inl hbound
          · set ov := get_overlap_sentences current overlap with hov
            have hovlen : (joinWithSpace ov).length ≤ overlap :=
              overlapGo_len overlap current.reverse [] 0 (by simp [joinWithSpace])
                (Nat.zero_le _)
            have hnext : (joinWithSpace (ov ++ [s])).length ≤ target + overlap + 1 := by
              rw [length_joinWithSpace_append]
              split
              · omega
              · omega
            have hbook :
                sumLen (ov ++ [s]) + (ov ++ [s]).length - 1 =
                  (joinWithSpace (ov ++ [s])).length := by
              rw [length_joinWithSpace_eq (ov ++ [s]) (by simp)]
            rcases ih (ov ++ [s]) (sumLen (ov ++ [s]) + (ov ++ [s]).length - 1)
                hbook hnext c hcr with hb | ⟨hm, hl⟩
            · exact Or.inl hb
            · exact Or.inr ⟨List.mem_cons_of_mem _ hm, hl⟩
        · -- no flush: append the sentence to the current chunk
          rename_i hnoflush
          have hle : ¬ target < curLen + s.length + 1 := by
            intro hgt
            exact hnoflush (by simp [hempb, hgt])
          have hnew : curLen + s.length + 1 =
              (joinWithSpace (current ++ [s])).length := by
            rw [length_joinWithSpace_append, hempb]
            simp only [Bool.false_eq_true, if_false]
            omega
          have hnewle :
              (joinWithSpace (current ++ [s])).length ≤ target + overlap + 1 := by
            rw [← hnew]
            omega
          rcases ih (current ++ [s]) (curLen + s.length + 1) hnew hnewle c hc with
            hb | ⟨hm, hl⟩
          · exact Or.inl hb
          · exact Or.inr ⟨List.mem_cons_of_mem _ hm, hl⟩

/-- Claim C1 as amended: every chunk emitted by chunk_text_by_sentences
has length at most target plus overlap plus 1 (a flushed chunk that was
seeded with overlap sentences can exceed the target by up to the
overlap bound plus one joining space), except a chunk consisting of a
single input sentence whose own length exceeds the target. -/
theorem c1_chunk_length_bound (text : List Char) (target overlap : Nat) :
    ∀ c ∈ chunk_text_by_sentences text target overlap,
      c.length ≤ target + overlap + 1 ∨
        (c ∈ split_into_sentences text ∧ target < c.length) := by
  intro c hc
  simp only [chunk_text_by_sentences] at hc
  split at hc
  · simp at hc
  · rename_i hne
    split at hc
    · rename_i hsmall
      simp only [List.mem_singleton] at hc
      subst hc
      left
      have hnil : split_into_sentences text ≠ [] := by
        simpa [List.isEmpty_iff] using hne
      rw [length_joinWithSpace_eq _ hnil]
      omega
    · exact chunkLoop_bound target overlap (split_into_sentences text) [] 0
        (by simp [joinWithSpace]) (by simp [joinWithSpace]) c hc

/-- Claim C1 as stated is false: at target 20 and overlap 10, the middle
chunk of the example text has 29 characters, exceeding the target while
consisting of two sentences. -/
theorem c1_counterexample :
    ¬ ∀ c ∈ chunk_text_by_sentences c1Text 20 10,
        c.length ≤ 20 ∨ c ∈ split_into_sentences c1Text := by
  decide

/-- Witness for the amended claim C1: the oversized middle chunk of the
example stays within target plus overlap plus 1. -/
theorem c1_witness :
    "Aaaaaaaa. Bbbbbbbbbbbbbbbbbb.".toList.length ≤ 20 + 10 + 1 ∨
      ("Aaaaaaaa. Bbbbbbbbbbbbbbbbbb.".toList ∈ split_into_sentences c1Text ∧
        20 < "Aaaaaaaa. Bbbbbbbbbbbbbbbbbb.".toList.length) :=
  c1_chunk_length_bound c1Text 20 10 "Aaaaaaaa. Bbbbbbbbbbbbbbbbbb.".toList
    (by decide)

set_option maxRecDepth 100000 in
/-- Claim C9 contradicted by the code: the example text has two
blank-line-separated paragraphs (the paragraph splitter itself finds
them in the raw text), it exceeds 200 characters after normalization,
and boundary detection finds at most one sentence - yet
split_into_sentences returns the whole normalized text as a single
segment, because normalization has already replaced the newlines by
spaces when the fallback runs. -/
theorem c9_paragraph_fallback_dead :
    splitParagraphs c9Text = [List.replicate 120 'a', List.replicate 120 'b']
  ∧ 200 < (normalizeWs c9Text).length
  ∧ split_into_sentences c9Text =
      [List.replicate 120 'a' ++ ' ' :: List.replicate 120 'b']
  ∧ (split_into_sentences c9Text).length = 1 := by
  refine ⟨by decide, by decide, by decide, by decide⟩

/-- Membership is preserved by the stable descending insertion. -/
theorem mem_insertDescBy {α : Type} (key : α → ℚ) (x y : α) :
    ∀ (l : List α), y ∈ insertDescBy key x l ↔ y = x ∨ y ∈ l := by
  intro l
  induction l with
  | nil => simp [insertDescBy]
  | cons z zs ih =>
    simp only [insertDescBy]
    split
    · simp [List.mem_cons]
    · simp only [List.mem_cons, ih]
      tauto

/-- Membership is preserved by the stable descending sort. -/
theorem mem_sortDescBy {α : Type} (key : α → ℚ) (y : α) :
    ∀ (l : List α), y ∈ sortDescBy key l ↔ y ∈ l := by
  intro l
  induction l with
  | nil => simp [sortDescBy]
  | cons z zs ih =>
    simp only [sortDescBy, mem_insertDescBy, ih, List.mem_cons]

/-- Every fused score is strictly positive. -/
theorem fusedScore_pos (pool : List SearchResult) (combined : List ℚ) (id : String) :
    0 < fusedScore pool combined id := by
  unfold fusedScore rrf60
  have h1 := rrf60_term_pos (idxOf id (pool.map (fun r => r.id)))
  have h2 := rrf60_term_pos (idxOf id (lexRankedIds pool combined))
  linarith

/-- The sigmoid lands strictly inside the unit interval. -/
theorem sigmoid_bounds (q : ℚ) : 0 < sigmoid q ∧ sigmoid q < 1 := by
  unfold sigmoid
  have hb : (0 : ℝ) < (2.718281828 : ℝ) ^ (-(q : ℝ)) :=
    Real.rpow_pos_of_pos (by norm_num) _
  constructor
  · apply div_pos one_pos
    linarith
  · rw [div_lt_one (by linarith)]
    linarith

/-- Claim C2: every chunk returned by retrieve carries a display
similarity min of 30 times its fused score and 1, which lies in the
unit interval; and with at least two candidates every chunk returned by
rerank_chunks carries the sigmoid of one of the cross-encoder scores,
which lies in the unit interval. -/
theorem c2_similarity_in_unit_interval :
    (∀ (searchResults : List (List SearchResult)) (bm25ScoreLists : List (List ℚ))
        (top_k : Nat) (thr : ℚ),
      ∀ c ∈ retrieve searchResults bm25ScoreLists top_k thr,
        (0 : ℚ) ≤ c.similarity ∧ c.similarity ≤ 1)
  ∧ (∀ (chunks : List RetrievedChunk) (scores : List ℚ) (top_k : Nat),
      2 ≤ chunks.length →
      ∀ c ∈ rerank_chunks chunks scores top_k,
        (0 : ℝ) ≤ c.similarity ∧ c.similarity ≤ 1 ∧
          ∃ q ∈ scores, c.similarity = sigmoid q) := by
  constructor
  · intro searchResults bm25ScoreLists top_k thr c hc
    simp only [retrieve] at hc
    split at hc
    · simp at hc
    · split at hc
      · simp at hc
      · rw [List.mem_filterMap] at hc
        obtain ⟨id, _, hbuild⟩ := hc
        simp only [buildChunk, Option.map_eq_some'] at hbuild
        obtain ⟨r, _, hceq⟩ := hbuild
        subst hceq
        exact ⟨le_min (mul_nonneg (fusedScore_pos _ _ _).le (by norm_num)) zero_le_one,
          min_le_right _ _⟩
  · intro chunks scores top_k hlen c hc
    simp only [rerank_chunks] at hc
    split at hc
    · rename_i hc1
      omega
    · rw [List.mem_map] at hc
      obtain ⟨p, hp, hceq⟩ := hc
      have hpz : p ∈ chunks.zip scores := by
        have hp' := List.mem_of_mem_take hp
        rwa [mem_sortDescBy] at hp'
      have hq : p.2 ∈ scores := (List.of_mem_zip hpz).2
      subst hceq
      have hb := sigmoid_bounds p.2
      exact ⟨le_of_lt hb.1, le_of_lt hb.2, p.2, hq, rfl⟩

/-- Witness for claim C2: a two-candidate retrieval whose best chunk has
display similarity exactly 1, and a two-candidate rerank whose best
chunk carries the sigmoid of score 2. -/
theorem c2_witness :
    ((0 : ℚ) ≤ exChunkOut.similarity ∧ exChunkOut.similarity ≤ 1)
  ∧ ((0 : ℝ) ≤ exRer1.similarity ∧ exRer1.similarity ≤ 1 ∧
      ∃ q ∈ [(2 : ℚ), -1], exRer1.similarity = sigmoid q) := by
  have hne : ("c1" : String) ≠ "c2" := by decide
  have hne' : ("c2" : String) ≠ "c1" := by decide
  have hret : retrieve [[exSR1, exSR2]] [[1, 0]] 5 (7/20) =
      [exChunkOut, ⟨"c2", "d1", "doc.pdf", some 2, "gamma", 60/61⟩] := by
    norm_num [retrieve, mergeResults, insertFirst, updateBest, lookupScore, sortDescBy,
      insertDescBy, combineScores, combineOne, lexRankedIds, fusedScore, rrf60, idxOf,
      buildChunk, exSR1, exSR2, exChunkOut, hne, hne', min_def, List.filterMap_cons,
      List.find?]
  constructor
  · exact c2_similarity_in_unit_interval.1 [[exSR1, exSR2]] [[1, 0]] 5 (7/20)
      exChunkOut (by rw [hret]; exact List.mem_cons_self _ _)
  · refine c2_similarity_in_unit_interval.2 [exRC1, exRC2] [2, -1] 5 (by norm_num)
      exRer1 ?_
    have h : rerank_chunks [exRC1, exRC2] [2, -1] 5 = [exRer1, exRer2] := by
      norm_num [rerank_chunks, sortDescBy, insertDescBy, exRC1, exRC2, exRer1, exRer2]
    rw [h]
    exact List.mem_cons_self _ _

/-- A successful non-fallthrough run of the try block returns the
original query followed by the kept alternatives. -/
theorem expandAttempt_ok_some (env : ExpanderEnv) (query : String) (l0 : List String)
    (h : expandAttempt env query = Except.ok (some l0)) :
    ∃ kept, l0 = query :: kept := by
  unfold expandAttempt at h
  split at h
  · exact Except.noConfusion h
  · split at h
    · simp at h
    · split at h
      · exact Except.noConfusion h
      · split at h
        · split at h
          · exact Except.noConfusion h
          · rename_i kept hkept
            simp only [Except.ok.injEq, Option.some.injEq] at h
            exact ⟨kept, h.symm⟩
        · simp at h
      · simp at h

/-- Claim C6 is refuted on the code: with a client constructor that
raises, expand_query propagates the exception instead of returning the
original query, because get_groq_client runs outside the try block. -/
theorem c6_counterexample :
    expand_query c6EnvRaise "hello" = Except.error () ∧
      ¬ ∃ l, expand_query c6EnvRaise "hello" = Except.ok l := by
  refine ⟨rfl, ?_⟩
  rintro ⟨l, hl⟩
  rw [show expand_query c6EnvRaise "hello" = Except.error () from rfl] at hl
  exact Except.noConfusion hl

/-- Claim C6 as amended: provided the completion-client constructor does
not raise, expand_query never raises and returns a non-empty list whose
first element is the original query; whenever the try block raises or
falls through without producing alternatives, the result is exactly the
one-element list holding the original query. -/
theorem c6_expand_query_amended (env : ExpanderEnv) (query : String)
    (h : env.clientRaises = false) :
    ∃ l, expand_query env query = Except.ok l ∧ l ≠ [] ∧ l.head? = some query ∧
      (∀ e, expandAttempt env query = Except.error e → l = [query]) ∧
      (expandAttempt env query = Except.ok none → l = [query]) := by
  unfold expand_query
  rw [h]
  simp only [Bool.false_eq_true, if_false]
  rcases hA : expandAttempt env query with e | o
  · exact ⟨[query], rfl, by simp, rfl, fun _ _ => rfl, fun _ => rfl⟩
  · cases o with
    | none => exact ⟨[query], rfl, by simp, rfl, fun _ _ => rfl, fun _ => rfl⟩
    | some l0 =>
      obtain ⟨kept, hk⟩ := expandAttempt_ok_some env query l0 hA
      subst hk
      refine ⟨query :: kept, rfl, by simp, rfl, ?_, ?_⟩
      · intro e he
        exact Except.noConfusion he
      · intro he
        simp at he

/-- Witness for the amended claim C6: a healthy environment returning
the alternatives Alpha and beta for the query q. -/
theorem c6_witness :
    ∃ l, expand_query c6EnvOk "q" = Except.ok l ∧ l ≠ [] ∧ l.head? = some "q" ∧
      (∀ e, expandAttempt c6EnvOk "q" = Except.error e → l = ["q"]) ∧
      (expandAttempt c6EnvOk "q" = Except.ok none → l = ["q"]) :=
  c6_expand_query_amended c6EnvOk "q" rfl

end TalkingBird
